import Mathlib

/-!
Shallow embedding of the Fiat-Shamir challenger adaptation layer
(`challenger/src/serializing_challenger.rs`) and the proving configuration
(`uni-stark/src/config.rs`) of the Plonky3 repository snapshot.

Modelling conventions:
* A byte (`u8`) is a natural number; the 8-bit bound is imposed by reducing
  mod 256 wherever a sampled byte enters arithmetic (observed bytes are
  produced by `toLeBytes`, whose outputs are below 256 by construction).
* A `u32`/`u64`/`u128` computation is carried out on `Nat` with explicit
  `% 2 ^ 32` / `% 2 ^ 64` / `% 2 ^ 128` reductions where the Rust code can
  wrap or truncate.
* A base field element of a prime field of order `p` is modelled by its
  canonical representative, a natural number below `p`; consequently the
  `to_unique_u32` / `to_unique_u64` serialization hooks are the identity on
  the representative.
* `usize` is modelled as a 64-bit word, so `usize::BITS = 64`.
* A Rust `panic!` / failed `assert!` / `expect` is modelled by an `Option`
  result of `none` (or a dedicated constructor of a result type).
* The rejection-sampling loop of `sample` is given explicit fuel: the Rust
  loop has no bound, and an adversarial inner transcript can make it spin
  forever, so totality requires an out-of-fuel result.
-/

namespace Plonky3

/-- The inner byte transcript capability: a state type together with a
byte-observe operation and a byte-sample operation, mirroring the
`CanObserve<u8>` and `CanSample<u8>` bounds on the `Inner` parameter of the
serializing challengers. -/
structure InnerOps (σ : Type) where
  observe : σ → Nat → σ
  sample : σ → Nat × σ

/-- The `observe_slice` helper of the inner transcript: forward each byte of
the list, first to last, to the byte-observe operation. -/
def observeSlice {σ : Type} (ops : InnerOps σ) (bs : List Nat) (s : σ) : σ :=
  bs.foldl ops.observe s

/-- Draw `n` successive bytes from the inner transcript and assemble them as
a little-endian unsigned integer: the composition of `sample_array` with
`u32::from_le_bytes` / `u64::from_le_bytes` (the first byte drawn is the
least significant). -/
def sampleWord {σ : Type} (ops : InnerOps σ) : Nat → σ → Nat × σ
  | 0, s => (0, s)
  | n + 1, s =>
    let b := ops.sample s
    let r := sampleWord ops n b.2
    (b.1 % 256 + 256 * r.1, r.2)

/-- Little-endian byte encoding of width `n` (`to_le_bytes`): byte `i` is
`v / 256 ^ i % 256`. -/
def toLeBytes : Nat → Nat → List Nat
  | 0, _ => []
  | n + 1, v => v % 256 :: toLeBytes n (v / 256)

/-- Little-endian decoding of a byte list, the mathematical inverse of
`toLeBytes` on values that fit the width. -/
def fromLeBytes : List Nat → Nat
  | [] => 0
  | b :: bs => b + 256 * fromLeBytes bs

/-- Fuel-driven binary length: `bitLenAux fuel n` is the number of binary
digits of `n`, provided `n ≤ fuel`. -/
def bitLenAux : Nat → Nat → Nat
  | 0, _ => 0
  | fuel + 1, n => if n = 0 then 0 else bitLenAux fuel (n / 2) + 1

/-- The number of binary digits of `n` (0 for 0). -/
def bitLen (n : Nat) : Nat := bitLenAux n n

/-- Modelled from the spec: the helper `log2_ceil_u64` lives in the
`p3-util` crate, which is not part of this repository snapshot. The spec
defines `log_size = ceil(log2(order))`, i.e. the least `k` with
`order ≤ 2 ^ k`; for `order ≥ 2` this is one more than the binary logarithm
of `order - 1`, rendered here through the binary length of `order - 1`. -/
def log2_ceil_u64 (n : Nat) : Nat := bitLen (n - 1)

/-- The bitmask of `SerializingChallenger32::sample`: the Rust expression
`((1u64 << log_size) - 1) as u32`, i.e. a shift and subtraction carried out
in a 64-bit accumulator followed by a truncation to 32 bits. -/
def pow_of_two_bound32 (p : Nat) : Nat :=
  ((1 <<< log2_ceil_u64 p) % 2 ^ 64 - 1) % 2 ^ 32

/-- The bitmask of `SerializingChallenger64::sample`: the Rust expression
`((1u128 << log_size) - 1) as u64`, i.e. a shift and subtraction carried out
in a 128-bit accumulator followed by a truncation to 64 bits. -/
def pow_of_two_bound64 (p : Nat) : Nat :=
  ((1 <<< log2_ceil_u64 p) % 2 ^ 128 - 1) % 2 ^ 64

/-- The unchecked integer-to-field conversion `from_canonical_unchecked`:
its contract requires the argument to be below the field order `p`; within
range it produces the element with that canonical representative, out of
range its behaviour is undefined, modelled by `none`. -/
def from_canonical_unchecked (p v : Nat) : Option Nat :=
  if v < p then some v else none

/-- Result of one run of the rejection-sampling loop: a field element
together with the advanced inner state, an out-of-fuel marker carrying the
state reached, or the undefined behaviour marker for an out-of-range
unchecked conversion. -/
inductive SampleResult (σ : Type) where
  | ok : Nat → σ → SampleResult σ
  | outOfFuel : σ → SampleResult σ
  | undef : SampleResult σ
deriving DecidableEq

/-- The canonical representative of an `ok` result, if any. -/
def SampleResult.value {σ : Type} : SampleResult σ → Option Nat
  | .ok v _ => some v
  | _ => none

/-- The rejection-sampling loop of `SerializingChallenger32::sample` for one
base-field coordinate: draw a 4-byte little-endian word, mask it with
`pow_of_two_bound32`, accept it through `from_canonical_unchecked` when it
is strictly below the order `p`, and redraw otherwise. -/
def sample_base32 {σ : Type} (ops : InnerOps σ) (p : Nat) :
    Nat → σ → SampleResult σ
  | 0, s => .outOfFuel s
  | fuel + 1, s =>
    let w := sampleWord ops 4 s
    let value := w.1 &&& pow_of_two_bound32 p
    if value < p then
      match from_canonical_unchecked p value with
      | some x => .ok x w.2
      | none => .undef
    else
      sample_base32 ops p fuel w.2

/-- The rejection-sampling loop of `SerializingChallenger64::sample` for one
base-field coordinate: as `sample_base32` with an 8-byte word and the
64-bit mask. -/
def sample_base64 {σ : Type} (ops : InnerOps σ) (p : Nat) :
    Nat → σ → SampleResult σ
  | 0, s => .outOfFuel s
  | fuel + 1, s =>
    let w := sampleWord ops 8 s
    let value := w.1 &&& pow_of_two_bound64 p
    if value < p then
      match from_canonical_unchecked p value with
      | some x => .ok x w.2
      | none => .undef
    else
      sample_base64 ops p fuel w.2

/-- `CanSample<EF> for SerializingChallenger32`: an extension-field element
of dimension `d` is sampled as `d` base coordinates, drawn in order by the
rejection-sampling loop (`EF::from_basis_coefficients_fn`), each loop run
given `fuel` draws; `none` when any coordinate run fails to accept. -/
def sample32 {σ : Type} (ops : InnerOps σ) (p fuel : Nat) :
    Nat → σ → Option (List Nat × σ)
  | 0, s => some ([], s)
  | d + 1, s =>
    match sample_base32 ops p fuel s with
    | .ok v s' => (sample32 ops p fuel d s').map fun r => (v :: r.1, r.2)
    | _ => none

/-- `CanSample<EF> for SerializingChallenger64`: as `sample32` over the
64-bit base sampler. -/
def sample64 {σ : Type} (ops : InnerOps σ) (p fuel : Nat) :
    Nat → σ → Option (List Nat × σ)
  | 0, s => some ([], s)
  | d + 1, s =>
    match sample_base64 ops p fuel s with
    | .ok v s' => (sample64 ops p fuel d s').map fun r => (v :: r.1, r.2)
    | _ => none

/-- `CanObserve<F> for SerializingChallenger32`: serialize the canonical
representative (`to_unique_u32`, the identity in this model) into 4
little-endian bytes and forward each byte, in order, to the inner
transcript. -/
def observe32 {σ : Type} (ops : InnerOps σ) (v : Nat) (s : σ) : σ :=
  observeSlice ops (toLeBytes 4 v) s

/-- `CanObserve<F> for SerializingChallenger64`: serialize the canonical
representative (`to_unique_u64`, the identity in this model) into 8
little-endian bytes and forward each byte, in order, to the inner
transcript. -/
def observe64 {σ : Type} (ops : InnerOps σ) (v : Nat) (s : σ) : σ :=
  observeSlice ops (toLeBytes 8 v) s

/-- `CanSampleBits<usize> for SerializingChallenger32`: assert
`bits < usize::BITS` (64 in this model) and `(1 << bits) <= F::ORDER_U64`,
then draw one 4-byte little-endian word and keep its low `bits` bits by
masking with `2 ^ bits - 1`; `none` models a failed assertion. -/
def sample_bits32 {σ : Type} (ops : InnerOps σ) (p bits : Nat) (s : σ) :
    Option (Nat × σ) :=
  if bits < 64 ∧ 2 ^ bits ≤ p then
    let w := sampleWord ops 4 s
    some (w.1 &&& (2 ^ bits - 1), w.2)
  else
    none

/-- `CanSampleBits<usize> for SerializingChallenger64`: as `sample_bits32`
with one 8-byte word. -/
def sample_bits64 {σ : Type} (ops : InnerOps σ) (p bits : Nat) (s : σ) :
    Option (Nat × σ) :=
  if bits < 64 ∧ 2 ^ bits ≤ p then
    let w := sampleWord ops 8 s
    some (w.1 &&& (2 ^ bits - 1), w.2)
  else
    none

/-- Modelled from the spec: `check_witness` is a provided method of the
`GrindingChallenger` trait, whose defining module is not part of this
repository snapshot. Per the spec, the check observes the candidate into the
transcript state it is run against, samples `bits` bits from it, and accepts
exactly when the sampled value equals zero; the state it was run against is
advanced accordingly. 32-bit variant. -/
def check_witness32 {σ : Type} (ops : InnerOps σ) (p bits w : Nat) (s : σ) :
    Option (Bool × σ) :=
  match sample_bits32 ops p bits (observe32 ops w s) with
  | some (v, s') => some (v == 0, s')
  | none => none

/-- Modelled from the spec: as `check_witness32`, 64-bit variant. -/
def check_witness64 {σ : Type} (ops : InnerOps σ) (p bits w : Nat) (s : σ) :
    Option (Bool × σ) :=
  match sample_bits64 ops p bits (observe64 ops w s) with
  | some (v, s') => some (v == 0, s')
  | none => none

/-- The grinding predicate evaluated on a clone of the live state `s`:
`self.clone().check_witness(bits, w)` accepts. 32-bit variant. -/
def accepts32 {σ : Type} (ops : InnerOps σ) (p bits : Nat) (s : σ) (w : Nat) :
    Bool :=
  match check_witness32 ops p bits w s with
  | some (true, _) => true
  | _ => false

/-- The grinding predicate evaluated on a clone of the live state `s`,
64-bit variant. -/
def accepts64 {σ : Type} (ops : InnerOps σ) (p bits : Nat) (s : σ) (w : Nat) :
    Bool :=
  match check_witness64 ops p bits w s with
  | some (true, _) => true
  | _ => false

/-- The candidate list of `grind`: every integer of `0..order` pushed
through the unchecked integer-to-field conversion. -/
def grind_candidates (p : Nat) : List Nat :=
  (List.range p).filterMap (from_canonical_unchecked p)

/-- A faithful abstraction of `find_any` on a parallel iterator: `pick`
chooses some element of the accepted-candidate list, and is nondeterministic
in which one. `PickValid` states exactly what `find_any` guarantees: a
chosen element belongs to the list, and the search comes back empty exactly
when the list is empty. -/
def PickValid (pick : List Nat → Option Nat) : Prop :=
  (∀ l : List Nat, pick l = none ↔ l = []) ∧
    ∀ (l : List Nat) (w : Nat), pick l = some w → w ∈ l

/-- Result of a `grind` call: a witness with the advanced live state, a
failed precondition `assert!` at entry, an exhausted search
(`expect(..)` on an empty `find_any`), or a failure of the final
re-validation `assert!` (including a panic inside the live
`check_witness`). -/
inductive GrindResult (σ : Type) where
  | found : Nat → σ → GrindResult σ
  | contractViolation : GrindResult σ
  | exhausted : GrindResult σ
  | assertFailed : GrindResult σ
deriving DecidableEq

/-- `GrindingChallenger::grind for SerializingChallenger32`: assert
`bits < usize::BITS` and `(1 << bits) < F::ORDER_U32`, search the candidate
list for one accepted by the cloned-state predicate, then re-validate the
chosen witness with `check_witness` on the live state and return it together
with the state that re-validation produced. -/
def grind32 {σ : Type} (pick : List Nat → Option Nat) (ops : InnerOps σ)
    (p bits : Nat) (s : σ) : GrindResult σ :=
  if bits < 64 ∧ 2 ^ bits < p then
    match pick ((grind_candidates p).filter (accepts32 ops p bits s)) with
    | some w =>
      match check_witness32 ops p bits w s with
      | some (true, s') => .found w s'
      | _ => .assertFailed
    | none => .exhausted
  else
    .contractViolation

/-- `GrindingChallenger::grind for SerializingChallenger64`: as `grind32`
with the 64-bit predicate and the `(1 << bits) < F::ORDER_U64` assertion. -/
def grind64 {σ : Type} (pick : List Nat → Option Nat) (ops : InnerOps σ)
    (p bits : Nat) (s : σ) : GrindResult σ :=
  if bits < 64 ∧ 2 ^ bits < p then
    match pick ((grind_candidates p).filter (accepts64 ops p bits s)) with
    | some w =>
      match check_witness64 ops p bits w s with
      | some (true, s') => .found w s'
      | _ => .assertFailed
    | none => .exhausted
  else
    .contractViolation

/-- One draw-and-mask step of the 32-bit rejection loop: the masked word and
the state after the draw. -/
def maskedDraw32 {σ : Type} (ops : InnerOps σ) (p : Nat) (s : σ) : Nat × σ :=
  let w := sampleWord ops 4 s
  (w.1 &&& pow_of_two_bound32 p, w.2)

/-- One draw-and-mask step of the 64-bit rejection loop. -/
def maskedDraw64 {σ : Type} (ops : InnerOps σ) (p : Nat) (s : σ) : Nat × σ :=
  let w := sampleWord ops 8 s
  (w.1 &&& pow_of_two_bound64 p, w.2)

/-- The state of the 32-bit rejection loop after `k` rejected draws. -/
def rejectIter32 {σ : Type} (ops : InnerOps σ) (p : Nat) : Nat → σ → σ
  | 0, s => s
  | k + 1, s => rejectIter32 ops p k (maskedDraw32 ops p s).2

/-- The state of the 64-bit rejection loop after `k` rejected draws. -/
def rejectIter64 {σ : Type} (ops : InnerOps σ) (p : Nat) : Nat → σ → σ
  | 0, s => s
  | k + 1, s => rejectIter64 ops p k (maskedDraw64 ops p s).2

/-- A concrete inner transcript for running the model: it records every
observed byte in order and serves samples from a fixed byte stream,
tracking the read position. -/
structure RecInner where
  obs : List Nat
  pos : Nat
deriving DecidableEq

/-- The byte operations of the recording transcript over the stream `f`. -/
def recOps (f : Nat → Nat) : InnerOps RecInner where
  observe s b := ⟨s.obs ++ [b], s.pos⟩
  sample s := (f s.pos, ⟨s.obs, s.pos + 1⟩)

/-- The byte stream of the toy scenario: successive 4-byte words decode to
15, 2, 9, 0, 0, ... . -/
def toyStream : Nat → Nat :=
  fun i => if i = 0 then 15 else if i = 4 then 2 else if i = 8 then 9 else 0

/-- The all-zero byte stream. -/
def zeroStream : Nat → Nat := fun _ => 0

/-- `StarkConfigImpl` of `uni-stark/src/config.rs`, shorn of its six phantom
type parameters (they are zero-sized `PhantomData` markers with no runtime
representation): the two runtime fields are the commitment-scheme instance
and the transform-engine instance taken at construction. -/
structure StarkConfigImpl (Pcs Dft : Type) where
  pcs : Pcs
  dft : Dft

/-- `StarkConfigImpl::new`: take ownership of the two instances. -/
def StarkConfigImpl.new {Pcs Dft : Type} (pcs : Pcs) (dft : Dft) :
    StarkConfigImpl Pcs Dft :=
  ⟨pcs, dft⟩

theorem bitLenAux_le {fuel n k : Nat} (hf : n ≤ fuel) (h : n < 2 ^ k) :
    bitLenAux fuel n ≤ k := by
  induction fuel generalizing n k with
  | zero => simp [bitLenAux]
  | succ fuel ih =>
    by_cases h0 : n = 0
    · simp [bitLenAux, h0]
    · have hk : k ≠ 0 := by
        rintro rfl
        omega
      obtain ⟨k', rfl⟩ := Nat.exists_eq_succ_of_ne_zero hk
      have hd : n / 2 < 2 ^ k' := by
        rw [Nat.div_lt_iff_lt_mul (by omega)]
        calc n < 2 ^ (k' + 1) := h
        _ = 2 ^ k' * 2 := by rw [pow_succ]
      have hdf : n / 2 ≤ fuel := by omega
      simp only [bitLenAux, h0, if_false]
      exact Nat.succ_le_succ (ih hdf hd)

theorem lt_pow_bitLenAux {fuel n : Nat} (hf : n ≤ fuel) :
    n < 2 ^ bitLenAux fuel n := by
  induction fuel generalizing n with
  | zero =>
    simp only [bitLenAux]
    omega
  | succ fuel ih =>
    by_cases h0 : n = 0
    · simp [bitLenAux, h0]
    · have hdf : n / 2 ≤ fuel := by omega
      have hd := ih hdf
      simp only [bitLenAux, h0, if_false]
      rw [pow_succ]
      omega

theorem bitLenAux_zero (fuel : Nat) : bitLenAux fuel 0 = 0 := by
  cases fuel <;> simp [bitLenAux]

theorem pow_pred_bitLenAux_le {fuel n : Nat} (hf : n ≤ fuel) (h0 : n ≠ 0) :
    2 ^ (bitLenAux fuel n - 1) ≤ n := by
  induction fuel generalizing n with
  | zero => omega
  | succ fuel ih =>
    by_cases h1 : n / 2 = 0
    · have hn : n = 1 := by omega
      subst hn
      simp [bitLenAux, bitLenAux_zero]
    · have hdf : n / 2 ≤ fuel := by omega
      have hd := ih hdf h1
      have hpos : 1 ≤ bitLenAux fuel (n / 2) := by
        cases fuel with
        | zero => omega
        | succ fuel => simp [bitLenAux, h1]
      simp only [bitLenAux, h0, if_false, Nat.add_sub_cancel]
      calc 2 ^ bitLenAux fuel (n / 2)
          = 2 * 2 ^ (bitLenAux fuel (n / 2) - 1) := by
            rw [← pow_succ']
            congr 1
            omega
        _ ≤ 2 * (n / 2) := by omega
        _ ≤ n := by omega

theorem log2_ceil_u64_le {p k : Nat} (h : p ≤ 2 ^ k) : log2_ceil_u64 p ≤ k := by
  have h1 : (1 : Nat) ≤ 2 ^ k := Nat.one_le_two_pow
  exact bitLenAux_le le_rfl (by omega)

theorem le_pow_log2_ceil_u64 (p : Nat) : p ≤ 2 ^ log2_ceil_u64 p := by
  have := lt_pow_bitLenAux (n := p - 1) le_rfl
  unfold log2_ceil_u64 bitLen
  omega

theorem pow_pred_log2_ceil_u64_lt {p : Nat} (hp : 1 < p) :
    2 ^ (log2_ceil_u64 p - 1) < p := by
  have := pow_pred_bitLenAux_le (n := p - 1) le_rfl (by omega)
  unfold log2_ceil_u64 bitLen
  omega

theorem pow_of_two_bound32_eq {p : Nat} (hp : p ≤ 2 ^ 32) :
    pow_of_two_bound32 p = 2 ^ log2_ceil_u64 p - 1 := by
  have hlog : log2_ceil_u64 p ≤ 32 := log2_ceil_u64_le hp
  have h1 : 2 ^ log2_ceil_u64 p ≤ 2 ^ 32 :=
    Nat.pow_le_pow_right (by omega) hlog
  have h32 : (2 : Nat) ^ 32 < 2 ^ 64 := by norm_num
  unfold pow_of_two_bound32
  rw [Nat.shiftLeft_eq, one_mul]
  have e1 : 2 ^ log2_ceil_u64 p % 2 ^ 64 = 2 ^ log2_ceil_u64 p :=
    Nat.mod_eq_of_lt (by omega)
  rw [e1, Nat.mod_eq_of_lt (by omega)]

theorem pow_of_two_bound64_eq {p : Nat} (hp : p ≤ 2 ^ 64) :
    pow_of_two_bound64 p = 2 ^ log2_ceil_u64 p - 1 := by
  have hlog : log2_ceil_u64 p ≤ 64 := log2_ceil_u64_le hp
  have h1 : 2 ^ log2_ceil_u64 p ≤ 2 ^ 64 :=
    Nat.pow_le_pow_right (by omega) hlog
  have h64 : (2 : Nat) ^ 64 < 2 ^ 128 := by norm_num
  unfold pow_of_two_bound64
  rw [Nat.shiftLeft_eq, one_mul]
  have e1 : 2 ^ log2_ceil_u64 p % 2 ^ 128 = 2 ^ log2_ceil_u64 p :=
    Nat.mod_eq_of_lt (by omega)
  rw [e1, Nat.mod_eq_of_lt (by omega)]

theorem sample_base32_succ {σ : Type} (ops : InnerOps σ) (p fuel : Nat)
    (s : σ) :
    sample_base32 ops p (fuel + 1) s =
      if (maskedDraw32 ops p s).1 < p then
        .ok (maskedDraw32 ops p s).1 (maskedDraw32 ops p s).2
      else
        sample_base32 ops p fuel (maskedDraw32 ops p s).2 := by
  by_cases h : (maskedDraw32 ops p s).1 < p
  · simp only [maskedDraw32] at h
    simp [sample_base32, maskedDraw32, from_canonical_unchecked, h]
  · simp only [maskedDraw32] at h
    simp [sample_base32, maskedDraw32, from_canonical_unchecked, h]

theorem sample_base64_succ {σ : Type} (ops : InnerOps σ) (p fuel : Nat)
    (s : σ) :
    sample_base64 ops p (fuel + 1) s =
      if (maskedDraw64 ops p s).1 < p then
        .ok (maskedDraw64 ops p s).1 (maskedDraw64 ops p s).2
      else
        sample_base64 ops p fuel (maskedDraw64 ops p s).2 := by
  by_cases h : (maskedDraw64 ops p s).1 < p
  · simp only [maskedDraw64] at h
    simp [sample_base64, maskedDraw64, from_canonical_unchecked, h]
  · simp only [maskedDraw64] at h
    simp [sample_base64, maskedDraw64, from_canonical_unchecked, h]

theorem sample_base32_first_accept {σ : Type} {ops : InnerOps σ} {p : Nat} :
    ∀ {fuel : Nat} {s : σ} {v : Nat} {s' : σ},
      sample_base32 ops p fuel s = .ok v s' →
      ∃ k < fuel,
        (∀ j < k, p ≤ (maskedDraw32 ops p (rejectIter32 ops p j s)).1) ∧
        maskedDraw32 ops p (rejectIter32 ops p k s) = (v, s') ∧ v < p := by
  intro fuel
  induction fuel with
  | zero =>
    intro s v s' h
    simp [sample_base32] at h
  | succ fuel ih =>
    intro s v s' h
    rw [sample_base32_succ] at h
    by_cases hacc : (maskedDraw32 ops p s).1 < p
    · rw [if_pos hacc] at h
      injection h with h1 h2
      refine ⟨0, by omega, by omega, ?_, by omega⟩
      simp only [rejectIter32]
      rw [Prod.ext_iff]
      exact ⟨h1, h2⟩
    · rw [if_neg hacc] at h
      obtain ⟨k, hk, hrej, hdraw, hlt⟩ := ih h
      refine ⟨k + 1, by omega, ?_, ?_, hlt⟩
      · intro j hj
        cases j with
        | zero => simpa [rejectIter32] using Nat.le_of_not_lt hacc
        | succ j => simpa [rejectIter32] using hrej j (by omega)
      · simpa [rejectIter32] using hdraw

theorem sample_base64_first_accept {σ : Type} {ops : InnerOps σ} {p : Nat} :
    ∀ {fuel : Nat} {s : σ} {v : Nat} {s' : σ},
      sample_base64 ops p fuel s = .ok v s' →
      ∃ k < fuel,
        (∀ j < k, p ≤ (maskedDraw64 ops p (rejectIter64 ops p j s)).1) ∧
        maskedDraw64 ops p (rejectIter64 ops p k s) = (v, s') ∧ v < p := by
  intro fuel
  induction fuel with
  | zero =>
    intro s v s' h
    simp [sample_base64] at h
  | succ fuel ih =>
    intro s v s' h
    rw [sample_base64_succ] at h
    by_cases hacc : (maskedDraw64 ops p s).1 < p
    · rw [if_pos hacc] at h
      injection h with h1 h2
      refine ⟨0, by omega, by omega, ?_, by omega⟩
      simp only [rejectIter64]
      rw [Prod.ext_iff]
      exact ⟨h1, h2⟩
    · rw [if_neg hacc] at h
      obtain ⟨k, hk, hrej, hdraw, hlt⟩ := ih h
      refine ⟨k + 1, by omega, ?_, ?_, hlt⟩
      · intro j hj
        cases j with
        | zero => simpa [rejectIter64] using Nat.le_of_not_lt hacc
        | succ j => simpa [rejectIter64] using hrej j (by omega)
      · simpa [rejectIter64] using hdraw

theorem sample_base32_ok_lt {σ : Type} {ops : InnerOps σ} {p fuel : Nat}
    {s : σ} {v : Nat} {s' : σ} (h : sample_base32 ops p fuel s = .ok v s') :
    v < p := by
  obtain ⟨_, _, _, _, hlt⟩ := sample_base32_first_accept h
  exact hlt

theorem sample_base64_ok_lt {σ : Type} {ops : InnerOps σ} {p fuel : Nat}
    {s : σ} {v : Nat} {s' : σ} (h : sample_base64 ops p fuel s = .ok v s') :
    v < p := by
  obtain ⟨_, _, _, _, hlt⟩ := sample_base64_first_accept h
  exact hlt

theorem sample_base32_ne_undef {σ : Type} (ops : InnerOps σ) (p : Nat) :
    ∀ (fuel : Nat) (s : σ), sample_base32 ops p fuel s ≠ .undef := by
  intro fuel
  induction fuel with
  | zero =>
    intro s h
    simp [sample_base32] at h
  | succ fuel ih =>
    intro s
    rw [sample_base32_succ]
    split
    · simp
    · exact ih _

theorem sample_base64_ne_undef {σ : Type} (ops : InnerOps σ) (p : Nat) :
    ∀ (fuel : Nat) (s : σ), sample_base64 ops p fuel s ≠ .undef := by
  intro fuel
  induction fuel with
  | zero =>
    intro s h
    simp [sample_base64] at h
  | succ fuel ih =>
    intro s
    rw [sample_base64_succ]
    split
    · simp
    · exact ih _

theorem sample32_coords_lt {σ : Type} {ops : InnerOps σ} {p fuel : Nat} :
    ∀ {d : Nat} {s : σ} {cs : List Nat} {s' : σ},
      sample32 ops p fuel d s = some (cs, s') → ∀ c ∈ cs, c < p := by
  intro d
  induction d with
  | zero =>
    intro s cs s' h
    simp only [sample32, Option.some.injEq, Prod.mk.injEq] at h
    rw [← h.1]
    simp
  | succ d ih =>
    intro s cs s' h
    rw [sample32] at h
    split at h
    case _ v t hb =>
      cases hr : sample32 ops p fuel d t with
      | none => rw [hr] at h; simp at h
      | some r =>
        rw [hr] at h
        simp only [Option.map_some', Option.some.injEq, Prod.mk.injEq] at h
        intro c hc
        rw [← h.1] at hc
        rcases List.mem_cons.mp hc with hc | hc
        · rw [hc]; exact sample_base32_ok_lt hb
        · exact ih hr c hc
    case _ => simp at h

theorem sample64_coords_lt {σ : Type} {ops : InnerOps σ} {p fuel : Nat} :
    ∀ {d : Nat} {s : σ} {cs : List Nat} {s' : σ},
      sample64 ops p fuel d s = some (cs, s') → ∀ c ∈ cs, c < p := by
  intro d
  induction d with
  | zero =>
    intro s cs s' h
    simp only [sample64, Option.some.injEq, Prod.mk.injEq] at h
    rw [← h.1]
    simp
  | succ d ih =>
    intro s cs s' h
    rw [sample64] at h
    split at h
    case _ v t hb =>
      cases hr : sample64 ops p fuel d t with
      | none => rw [hr] at h; simp at h
      | some r =>
        rw [hr] at h
        simp only [Option.map_some', Option.some.injEq, Prod.mk.injEq] at h
        intro c hc
        rw [← h.1] at hc
        rcases List.mem_cons.mp hc with hc | hc
        · rw [hc]; exact sample_base64_ok_lt hb
        · exact ih hr c hc
    case _ => simp at h

theorem toLeBytes_length (n : Nat) : ∀ v : Nat, (toLeBytes n v).length = n := by
  induction n with
  | zero => intro v; simp [toLeBytes]
  | succ n ih => intro v; simp [toLeBytes, ih]

theorem toLeBytes_lt (n : Nat) :
    ∀ v : Nat, ∀ b ∈ toLeBytes n v, b < 256 := by
  induction n with
  | zero => intro v b hb; simp [toLeBytes] at hb
  | succ n ih =>
    intro v b hb
    rcases List.mem_cons.mp hb with hb | hb
    · rw [hb]; exact Nat.mod_lt _ (by omega)
    · exact ih _ b hb

theorem fromLeBytes_toLeBytes (n : Nat) :
    ∀ v : Nat, v < 256 ^ n → fromLeBytes (toLeBytes n v) = v := by
  induction n with
  | zero =>
    intro v hv
    simp only [pow_zero] at hv
    interval_cases v
    simp [toLeBytes, fromLeBytes]
  | succ n ih =>
    intro v hv
    have hd : v / 256 < 256 ^ n := by
      rw [Nat.div_lt_iff_lt_mul (by omega)]
      calc v < 256 ^ (n + 1) := hv
      _ = 256 ^ n * 256 := by rw [pow_succ]
    simp only [toLeBytes, fromLeBytes, ih _ hd]
    omega

theorem observeSlice_rec (f : Nat → Nat) :
    ∀ (bs : List Nat) (t : RecInner),
      observeSlice (recOps f) bs t = ⟨t.obs ++ bs, t.pos⟩ := by
  intro bs
  induction bs with
  | nil => intro t; cases t; simp [observeSlice]
  | cons b bs ih =>
    intro t
    simp only [observeSlice, List.foldl_cons] at *
    rw [show (recOps f).observe t b = ⟨t.obs ++ [b], t.pos⟩ from rfl, ih]
    simp

theorem filterMap_some_id {α : Type} {f : α → Option α} :
    ∀ {l : List α}, (∀ a ∈ l, f a = some a) → l.filterMap f = l := by
  intro l
  induction l with
  | nil => intro _; simp
  | cons a l ih =>
    intro h
    rw [List.filterMap_cons, h a (by simp)]
    rw [ih fun b hb => h b (by simp [hb])]

theorem grind_candidates_eq_range (p : Nat) :
    grind_candidates p = List.range p := by
  unfold grind_candidates
  refine filterMap_some_id fun i hi => ?_
  rw [from_canonical_unchecked, if_pos (List.mem_range.mp hi)]

theorem accepts32_eq_true {σ : Type} {ops : InnerOps σ} {p bits : Nat}
    {s : σ} {w : Nat} (h : accepts32 ops p bits s w = true) :
    ∃ t, check_witness32 ops p bits w s = some (true, t) := by
  unfold accepts32 at h
  cases hc : check_witness32 ops p bits w s with
  | none => rw [hc] at h; simp at h
  | some r =>
    obtain ⟨b, t⟩ := r
    cases b
    · rw [hc] at h; simp at h
    · exact ⟨t, rfl⟩

theorem accepts64_eq_true {σ : Type} {ops : InnerOps σ} {p bits : Nat}
    {s : σ} {w : Nat} (h : accepts64 ops p bits s w = true) :
    ∃ t, check_witness64 ops p bits w s = some (true, t) := by
  unfold accepts64 at h
  cases hc : check_witness64 ops p bits w s with
  | none => rw [hc] at h; simp at h
  | some r =>
    obtain ⟨b, t⟩ := r
    cases b
    · rw [hc] at h; simp at h
    · exact ⟨t, rfl⟩

theorem pickValid_head : PickValid List.head? := by
  constructor
  · intro l
    exact List.head?_eq_none_iff
  · intro l w h
    cases l with
    | nil => simp at h
    | cons a l =>
      simp only [List.head?_cons, Option.some.injEq] at h
      rw [← h]
      simp

/-- C1: for both field-width variants, every base-field coordinate produced
by sampling is obtained by repeatedly drawing a native-width little-endian
integer from the inner transcript, masking it, and accepting the first
masked value strictly below the field order; consequently every sampled
base-field coordinate's canonical representative is strictly below the
field order. -/
theorem sample_rejection_spec (σ : Type) (ops : InnerOps σ) (p : Nat) :
    (∀ (fuel : Nat) (s : σ) (v : Nat) (s' : σ),
        sample_base32 ops p fuel s = .ok v s' →
        v < p ∧
          ∃ k < fuel,
            (∀ j < k, p ≤ (maskedDraw32 ops p (rejectIter32 ops p j s)).1) ∧
            maskedDraw32 ops p (rejectIter32 ops p k s) = (v, s')) ∧
    (∀ (fuel : Nat) (s : σ) (v : Nat) (s' : σ),
        sample_base64 ops p fuel s = .ok v s' →
        v < p ∧
          ∃ k < fuel,
            (∀ j < k, p ≤ (maskedDraw64 ops p (rejectIter64 ops p j s)).1) ∧
            maskedDraw64 ops p (rejectIter64 ops p k s) = (v, s')) ∧
    (∀ (fuel d : Nat) (s : σ) (cs : List Nat) (s' : σ),
        sample32 ops p fuel d s = some (cs, s') → ∀ c ∈ cs, c < p) ∧
    (∀ (fuel d : Nat) (s : σ) (cs : List Nat) (s' : σ),
        sample64 ops p fuel d s = some (cs, s') → ∀ c ∈ cs, c < p) := by
  refine ⟨?_, ?_, ?_, ?_⟩
  · intro fuel s v s' h
    obtain ⟨k, hk, hrej, hdraw, hlt⟩ := sample_base32_first_accept h
    exact ⟨hlt, k, hk, hrej, hdraw⟩
  · intro fuel s v s' h
    obtain ⟨k, hk, hrej, hdraw, hlt⟩ := sample_base64_first_accept h
    exact ⟨hlt, k, hk, hrej, hdraw⟩
  · intro fuel d s cs s' h
    exact sample32_coords_lt h
  · intro fuel d s cs s' h
    exact sample64_coords_lt h

/-- Witness for C1: the toy run accepts the masked draw 2 for order 13, and
the theorem yields that it is below the order. -/
theorem sample_rejection_spec_witness : (2 : Nat) < 13 :=
  ((sample_rejection_spec RecInner (recOps toyStream) 13).1 3 ⟨[], 0⟩ 2
      ⟨[], 8⟩ (by decide)).1

/-- C3: sample_bits draws exactly one native-width word, returns its low
`bits` bits (mask with `2 ^ bits - 1`, hence a value in `[0, 2 ^ bits)`),
and fails exactly when the precondition is violated: `bits` at least the
native width, or `2 ^ bits` greater than the field order. -/
theorem sample_bits_spec (σ : Type) (ops : InnerOps σ) (p bits : Nat)
    (s : σ) :
    (p < 2 ^ 32 →
      ((sample_bits32 ops p bits s = none ↔ 32 ≤ bits ∨ p < 2 ^ bits) ∧
        ∀ (v : Nat) (s' : σ), sample_bits32 ops p bits s = some (v, s') →
          v = (sampleWord ops 4 s).1 % 2 ^ bits ∧ v < 2 ^ bits ∧
            s' = (sampleWord ops 4 s).2)) ∧
    ((sample_bits64 ops p bits s = none ↔ 64 ≤ bits ∨ p < 2 ^ bits) ∧
      ∀ (v : Nat) (s' : σ), sample_bits64 ops p bits s = some (v, s') →
        v = (sampleWord ops 8 s).1 % 2 ^ bits ∧ v < 2 ^ bits ∧
          s' = (sampleWord ops 8 s).2) := by
  constructor
  · intro hp
    constructor
    · unfold sample_bits32
      by_cases hc : bits < 64 ∧ 2 ^ bits ≤ p
      · rw [if_pos hc]
        constructor
        · intro h
          exact absurd h (by simp)
        · intro h
          rcases h with h | h
          · have h1 : (2 : Nat) ^ 32 ≤ 2 ^ bits :=
              Nat.pow_le_pow_right (by omega) h
            omega
          · omega
      · rw [if_neg hc]
        constructor
        · intro _
          rcases Nat.lt_or_ge bits 64 with hb | hb
          · right
            rcases Nat.lt_or_ge p (2 ^ bits) with hq | hq
            · exact hq
            · exact absurd ⟨hb, hq⟩ hc
          · left
            omega
        · intro _
          rfl
    · intro v s' h
      unfold sample_bits32 at h
      by_cases hc : bits < 64 ∧ 2 ^ bits ≤ p
      · rw [if_pos hc] at h
        simp only [Option.some.injEq, Prod.mk.injEq] at h
        have hm : (sampleWord ops 4 s).1 &&& (2 ^ bits - 1) =
            (sampleWord ops 4 s).1 % 2 ^ bits :=
          Nat.and_pow_two_sub_one_eq_mod _ _
        have hv : v = (sampleWord ops 4 s).1 % 2 ^ bits := by
          rw [← h.1, hm]
        refine ⟨hv, ?_, h.2.symm⟩
        rw [hv]
        exact Nat.mod_lt _ (Nat.pos_pow_of_pos bits (by omega))
      · rw [if_neg hc] at h
        exact absurd h (by simp)
  · constructor
    · unfold sample_bits64
      by_cases hc : bits < 64 ∧ 2 ^ bits ≤ p
      · rw [if_pos hc]
        constructor
        · intro h
          exact absurd h (by simp)
        · intro h
          rcases h with h | h
          · omega
          · omega
      · rw [if_neg hc]
        constructor
        · intro _
          rcases Nat.lt_or_ge bits 64 with hb | hb
          · right
            rcases Nat.lt_or_ge p (2 ^ bits) with hq | hq
            · exact hq
            · exact absurd ⟨hb, hq⟩ hc
          · left
            exact hb
        · intro _
          rfl
    · intro v s' h
      unfold sample_bits64 at h
      by_cases hc : bits < 64 ∧ 2 ^ bits ≤ p
      · rw [if_pos hc] at h
        simp only [Option.some.injEq, Prod.mk.injEq] at h
        have hm : (sampleWord ops 8 s).1 &&& (2 ^ bits - 1) =
            (sampleWord ops 8 s).1 % 2 ^ bits :=
          Nat.and_pow_two_sub_one_eq_mod _ _
        have hv : v = (sampleWord ops 8 s).1 % 2 ^ bits := by
          rw [← h.1, hm]
        refine ⟨hv, ?_, h.2.symm⟩
        rw [hv]
        exact Nat.mod_lt _ (Nat.pos_pow_of_pos bits (by omega))
      · rw [if_neg hc] at h
        exact absurd h (by simp)

/-- Witness for C3: with the toy stream and order 13, sampling 3 bits takes
the low 3 bits of the single word 15 and stays below 8. -/
theorem sample_bits_spec_witness :
    (7 : Nat) = (sampleWord (recOps toyStream) 4 ⟨[], 0⟩).1 % 2 ^ 3 ∧
      (7 : Nat) < 2 ^ 3 ∧
      (⟨[], 4⟩ : RecInner) = (sampleWord (recOps toyStream) 4 ⟨[], 0⟩).2 :=
  ((sample_bits_spec RecInner (recOps toyStream) 13 3 ⟨[], 0⟩).1
      (by norm_num)).2 7 ⟨[], 4⟩ (by decide)

/-- C4: observe encodes the canonical representative little-endian into a
fixed-width byte array (4 bytes in the 32-bit variant, 8 in the 64-bit one)
and forwards every byte of that array, in order, to the inner byte-observe
operation, with no other mutation: every encoded byte is a byte, the
encoding is injective on representatives of the native width, and on the
recording transcript the observed-byte log is extended by exactly the
encoding while the sampling position is untouched. -/
theorem observe_spec (σ : Type) (ops : InnerOps σ) (v : Nat) (s : σ)
    (f : Nat → Nat) (t : RecInner) :
    ((toLeBytes 4 v).length = 4 ∧
      (∀ b ∈ toLeBytes 4 v, b < 256) ∧
      (v < 2 ^ 32 → fromLeBytes (toLeBytes 4 v) = v) ∧
      observe32 ops v s = observeSlice ops (toLeBytes 4 v) s ∧
      observe32 (recOps f) v t = ⟨t.obs ++ toLeBytes 4 v, t.pos⟩) ∧
    ((toLeBytes 8 v).length = 8 ∧
      (∀ b ∈ toLeBytes 8 v, b < 256) ∧
      (v < 2 ^ 64 → fromLeBytes (toLeBytes 8 v) = v) ∧
      observe64 ops v s = observeSlice ops (toLeBytes 8 v) s ∧
      observe64 (recOps f) v t = ⟨t.obs ++ toLeBytes 8 v, t.pos⟩) := by
  have h4 : (256 : Nat) ^ 4 = 2 ^ 32 := by norm_num
  have h8 : (256 : Nat) ^ 8 = 2 ^ 64 := by norm_num
  refine ⟨⟨toLeBytes_length 4 v, toLeBytes_lt 4 v, ?_, rfl,
      observeSlice_rec f _ t⟩,
    ⟨toLeBytes_length 8 v, toLeBytes_lt 8 v, ?_, rfl,
      observeSlice_rec f _ t⟩⟩
  · intro hv
    exact fromLeBytes_toLeBytes 4 v (by omega)
  · intro hv
    exact fromLeBytes_toLeBytes 8 v (by omega)

/-- Witness for C4: the little-endian encoding round-trips on a concrete
32-bit representative. -/
theorem observe_spec_witness : fromLeBytes (toLeBytes 4 305419896) = 305419896 :=
  ((observe_spec RecInner (recOps zeroStream) 305419896 ⟨[], 0⟩ zeroStream
      ⟨[], 0⟩).1.2.2.1 (by norm_num))

/-- C5: for every valid field order, the sampling bitmask equals exactly
`2 ^ log2_ceil(order) - 1` (with `log2_ceil` the ceiling of the base-2
logarithm: the order is at most `2 ^ log2_ceil(order)` and exceeds
`2 ^ (log2_ceil(order) - 1)`), and the shift `1 << log2_ceil(order)` stays
strictly inside the wide accumulator (u64 for the 32-bit variant, u128 for
the 64-bit variant), so the shift-and-subtract cannot overflow even when
`log2_ceil(order)` equals the native width. -/
theorem pow_of_two_bound_spec (p : Nat) (hp : 1 < p) :
    (p ≤ 2 ^ log2_ceil_u64 p ∧ 2 ^ (log2_ceil_u64 p - 1) < p) ∧
    (p < 2 ^ 32 →
      pow_of_two_bound32 p = 2 ^ log2_ceil_u64 p - 1 ∧
        2 ^ log2_ceil_u64 p < 2 ^ 64) ∧
    (p < 2 ^ 64 →
      pow_of_two_bound64 p = 2 ^ log2_ceil_u64 p - 1 ∧
        2 ^ log2_ceil_u64 p < 2 ^ 128) := by
  refine ⟨⟨le_pow_log2_ceil_u64 p, pow_pred_log2_ceil_u64_lt hp⟩, ?_, ?_⟩
  · intro h
    have hle : log2_ceil_u64 p ≤ 32 := log2_ceil_u64_le (by omega)
    have hpow : 2 ^ log2_ceil_u64 p ≤ 2 ^ 32 :=
      Nat.pow_le_pow_right (by omega) hle
    have h32 : (2 : Nat) ^ 32 < 2 ^ 64 := by norm_num
    exact ⟨pow_of_two_bound32_eq (by omega), by omega⟩
  · intro h
    have hle : log2_ceil_u64 p ≤ 64 := log2_ceil_u64_le (by omega)
    have hpow : 2 ^ log2_ceil_u64 p ≤ 2 ^ 64 :=
      Nat.pow_le_pow_right (by omega) hle
    have h64 : (2 : Nat) ^ 64 < 2 ^ 128 := by norm_num
    exact ⟨pow_of_two_bound64_eq (by omega), by omega⟩

/-- Witness for C5 at the edge-case order `2 ^ 31 + 1`, whose log2_ceil is
the full native width 32. -/
theorem pow_of_two_bound_spec_witness :
    pow_of_two_bound32 (2 ^ 31 + 1) = 2 ^ log2_ceil_u64 (2 ^ 31 + 1) - 1 ∧
      2 ^ log2_ceil_u64 (2 ^ 31 + 1) < 2 ^ 64 :=
  (pow_of_two_bound_spec (2 ^ 31 + 1) (by norm_num)).2.1 (by norm_num)

/-- C9: a configuration built by `StarkConfigImpl::new` from a
commitment-scheme instance and a transform-engine instance returns exactly
those instances through its two accessors, and holds no runtime state other
than the two instances: every configuration value is the construction from
its two accessors (the field/domain/challenge/challenger roles are phantom
type parameters with no runtime representation and are dropped from the
model). -/
theorem stark_config_spec (Pcs Dft : Type) (pc : Pcs) (df : Dft) :
    (StarkConfigImpl.new pc df).pcs = pc ∧
      (StarkConfigImpl.new pc df).dft = df ∧
      ∀ c : StarkConfigImpl Pcs Dft, c = StarkConfigImpl.new c.pcs c.dft :=
  ⟨rfl, rfl, fun _ => rfl⟩

/-- C10: the unchecked integer-to-field conversion is within range on every
execution path: the rejection-sampling loops can never reach the undefined
branch of `from_canonical_unchecked` (the conversion sits behind the strict
comparison with the order), and every grinding candidate lies in
`[0, order)`, so the conversion succeeds canonically on all of them. -/
theorem from_canonical_unchecked_safe (σ : Type) (ops : InnerOps σ)
    (p : Nat) :
    (∀ (fuel : Nat) (s : σ), sample_base32 ops p fuel s ≠ .undef) ∧
    (∀ (fuel : Nat) (s : σ), sample_base64 ops p fuel s ≠ .undef) ∧
    grind_candidates p = List.range p ∧
    ∀ i ∈ List.range p, from_canonical_unchecked p i = some i := by
  refine ⟨sample_base32_ne_undef ops p, sample_base64_ne_undef ops p,
    grind_candidates_eq_range p, fun i hi => ?_⟩
  rw [from_canonical_unchecked, if_pos (List.mem_range.mp hi)]

/-- Witness for C10: the conversion at the in-range candidate 2 of the order
13. -/
theorem from_canonical_unchecked_safe_witness :
    from_canonical_unchecked 13 2 = some 2 :=
  (from_canonical_unchecked_safe RecInner (recOps toyStream) 13).2.2.2 2
    (by decide)

theorem grind32_pick_none {σ : Type} {pick : List Nat → Option Nat}
    {ops : InnerOps σ} {p bits : Nat} {s : σ}
    (hb : bits < 64 ∧ 2 ^ bits < p)
    (hp : pick ((grind_candidates p).filter (accepts32 ops p bits s)) = none) :
    grind32 pick ops p bits s = .exhausted := by
  unfold grind32
  rw [if_pos hb, hp]

theorem grind32_pick_some {σ : Type} {pick : List Nat → Option Nat}
    {ops : InnerOps σ} {p bits : Nat} {s : σ} {w0 : Nat} {t : σ}
    (hb : bits < 64 ∧ 2 ^ bits < p)
    (hp : pick ((grind_candidates p).filter (accepts32 ops p bits s)) =
      some w0)
    (hc : check_witness32 ops p bits w0 s = some (true, t)) :
    grind32 pick ops p bits s = .found w0 t := by
  unfold grind32
  rw [if_pos hb]
  simp only [hp, hc]

theorem grind64_pick_none {σ : Type} {pick : List Nat → Option Nat}
    {ops : InnerOps σ} {p bits : Nat} {s : σ}
    (hb : bits < 64 ∧ 2 ^ bits < p)
    (hp : pick ((grind_candidates p).filter (accepts64 ops p bits s)) = none) :
    grind64 pick ops p bits s = .exhausted := by
  unfold grind64
  rw [if_pos hb, hp]

theorem grind64_pick_some {σ : Type} {pick : List Nat → Option Nat}
    {ops : InnerOps σ} {p bits : Nat} {s : σ} {w0 : Nat} {t : σ}
    (hb : bits < 64 ∧ 2 ^ bits < p)
    (hp : pick ((grind_candidates p).filter (accepts64 ops p bits s)) =
      some w0)
    (hc : check_witness64 ops p bits w0 s = some (true, t)) :
    grind64 pick ops p bits s = .found w0 t := by
  unfold grind64
  rw [if_pos hb]
  simp only [hp, hc]

/-- C2: any witness returned by grind lies in `[0, order)` — the candidate
set is exactly the integers of `[0, order)` mapped canonically — and
satisfies `check_witness` against the transcript state at the point grind
was called, for both field-width variants. -/
theorem grind_finds_valid_witness (σ : Type) (pick : List Nat → Option Nat)
    (ops : InnerOps σ) (p bits : Nat) (s : σ) (hpick : PickValid pick) :
    grind_candidates p = List.range p ∧
    (∀ (w : Nat) (s' : σ), grind32 pick ops p bits s = .found w s' →
        w < p ∧ (check_witness32 ops p bits w s).map Prod.fst = some true) ∧
    (∀ (w : Nat) (s' : σ), grind64 pick ops p bits s = .found w s' →
        w < p ∧ (check_witness64 ops p bits w s).map Prod.fst = some true) := by
  refine ⟨grind_candidates_eq_range p, ?_, ?_⟩
  · intro w s' h
    unfold grind32 at h
    by_cases hb : bits < 64 ∧ 2 ^ bits < p
    · rw [if_pos hb] at h
      split at h
      case _ w0 hp =>
        split at h
        case _ s2 hc =>
          injection h with h1 h2
          subst h1
          subst h2
          have hmem := List.mem_filter.mp (hpick.2 _ _ hp)
          have hrange : w0 ∈ List.range p := grind_candidates_eq_range p ▸ hmem.1
          refine ⟨List.mem_range.mp hrange, ?_⟩
          rw [hc]
          rfl
        case _ => exact absurd h (by simp)
      case _ hp => exact absurd h (by simp)
    · rw [if_neg hb] at h
      exact absurd h (by simp)
  · intro w s' h
    unfold grind64 at h
    by_cases hb : bits < 64 ∧ 2 ^ bits < p
    · rw [if_pos hb] at h
      split at h
      case _ w0 hp =>
        split at h
        case _ s2 hc =>
          injection h with h1 h2
          subst h1
          subst h2
          have hmem := List.mem_filter.mp (hpick.2 _ _ hp)
          have hrange : w0 ∈ List.range p := grind_candidates_eq_range p ▸ hmem.1
          refine ⟨List.mem_range.mp hrange, ?_⟩
          rw [hc]
          rfl
        case _ => exact absurd h (by simp)
      case _ hp => exact absurd h (by simp)
    · rw [if_neg hb] at h
      exact absurd h (by simp)

/-- Witness for C2: grinding 0 bits over the zero stream at order 13 returns
the witness 0, which is below 13 and passes the check against the state at
the call. -/
theorem grind_finds_valid_witness_witness :
    (0 : Nat) < 13 ∧
      (check_witness32 (recOps zeroStream) 13 0 0 ⟨[], 0⟩).map Prod.fst =
        some true :=
  (grind_finds_valid_witness RecInner List.head? (recOps zeroStream) 13 0
      ⟨[], 0⟩ pickValid_head).2.1 0 ⟨[0, 0, 0, 0], 4⟩ (by decide)

/-- C6: grind fails exactly on contract violation (`bits` at least the
native word width, or `2 ^ bits` at least the field order) or exhausted
search (no candidate of the whole field accepted), and the final
re-validation assertion can never be the failure; there is no other outcome
than these failures and a found witness, hence no recoverable error path. -/
theorem grind_failure_modes (σ : Type) (pick : List Nat → Option Nat)
    (ops : InnerOps σ) (p bits : Nat) (s : σ) (hpick : PickValid pick) :
    ((grind32 pick ops p bits s = .contractViolation ↔
        64 ≤ bits ∨ p ≤ 2 ^ bits) ∧
      (grind32 pick ops p bits s = .exhausted ↔
        bits < 64 ∧ 2 ^ bits < p ∧
          ∀ w < p, accepts32 ops p bits s w = false) ∧
      grind32 pick ops p bits s ≠ .assertFailed) ∧
    ((grind64 pick ops p bits s = .contractViolation ↔
        64 ≤ bits ∨ p ≤ 2 ^ bits) ∧
      (grind64 pick ops p bits s = .exhausted ↔
        bits < 64 ∧ 2 ^ bits < p ∧
          ∀ w < p, accepts64 ops p bits s w = false) ∧
      grind64 pick ops p bits s ≠ .assertFailed) := by
  constructor
  · by_cases hb : bits < 64 ∧ 2 ^ bits < p
    · cases hp : pick ((grind_candidates p).filter (accepts32 ops p bits s)) with
      | none =>
        have hg := grind32_pick_none hb hp
        have hfil := (hpick.1 _).mp hp
        refine ⟨?_, ?_, ?_⟩
        · rw [hg]
          constructor
          · intro h
            exact absurd h (by simp)
          · intro h
            exfalso
            omega
        · rw [hg]
          constructor
          · intro _
            refine ⟨hb.1, hb.2, fun w hw => ?_⟩
            have hmemc : w ∈ grind_candidates p := by
              rw [grind_candidates_eq_range]
              exact List.mem_range.mpr hw
            have hnot := List.filter_eq_nil_iff.mp hfil w hmemc
            cases hx : accepts32 ops p bits s w
            · rfl
            · exact absurd hx hnot
          · intro _
            rfl
        · rw [hg]
          simp
      | some w0 =>
        have hmem := List.mem_filter.mp (hpick.2 _ _ hp)
        obtain ⟨t, hc⟩ := accepts32_eq_true hmem.2
        have hg := grind32_pick_some hb hp hc
        have hw0 : w0 < p :=
          List.mem_range.mp (grind_candidates_eq_range p ▸ hmem.1)
        refine ⟨?_, ?_, ?_⟩
        · rw [hg]
          constructor
          · intro h
            exact absurd h (by simp)
          · intro h
            exfalso
            omega
        · rw [hg]
          constructor
          · intro h
            exact absurd h (by simp)
          · intro h
            exfalso
            have h2 := h.2.2 w0 hw0
            rw [hmem.2] at h2
            exact absurd h2 (by simp)
        · rw [hg]
          simp
    · have hg : grind32 pick ops p bits s = .contractViolation := by
        unfold grind32
        rw [if_neg hb]
      refine ⟨?_, ?_, ?_⟩
      · rw [hg]
        constructor
        · intro _
          omega
        · intro _
          rfl
      · rw [hg]
        constructor
        · intro h
          exact absurd h (by simp)
        · intro h
          exact absurd ⟨h.1, h.2.1⟩ hb
      · rw [hg]
        simp
  · by_cases hb : bits < 64 ∧ 2 ^ bits < p
    · cases hp : pick ((grind_candidates p).filter (accepts64 ops p bits s)) with
      | none =>
        have hg := grind64_pick_none hb hp
        have hfil := (hpick.1 _).mp hp
        refine ⟨?_, ?_, ?_⟩
        · rw [hg]
          constructor
          · intro h
            exact absurd h (by simp)
          · intro h
            exfalso
            omega
        · rw [hg]
          constructor
          · intro _
            refine ⟨hb.1, hb.2, fun w hw => ?_⟩
            have hmemc : w ∈ grind_candidates p := by
              rw [grind_candidates_eq_range]
              exact List.mem_range.mpr hw
            have hnot := List.filter_eq_nil_iff.mp hfil w hmemc
            cases hx : accepts64 ops p bits s w
            · rfl
            · exact absurd hx hnot
          · intro _
            rfl
        · rw [hg]
          simp
      | some w0 =>
        have hmem := List.mem_filter.mp (hpick.2 _ _ hp)
        obtain ⟨t, hc⟩ := accepts64_eq_true hmem.2
        have hg := grind64_pick_some hb hp hc
        have hw0 : w0 < p :=
          List.mem_range.mp (grind_candidates_eq_range p ▸ hmem.1)
        refine ⟨?_, ?_, ?_⟩
        · rw [hg]
          constructor
          · intro h
            exact absurd h (by simp)
          · intro h
            exfalso
            omega
        · rw [hg]
          constructor
          · intro h
            exact absurd h (by simp)
          · intro h
            exfalso
            have h2 := h.2.2 w0 hw0
            rw [hmem.2] at h2
            exact absurd h2 (by simp)
        · rw [hg]
          simp
    · have hg : grind64 pick ops p bits s = .contractViolation := by
        unfold grind64
        rw [if_neg hb]
      refine ⟨?_, ?_, ?_⟩
      · rw [hg]
        constructor
        · intro _
          omega
        · intro _
          rfl
      · rw [hg]
        constructor
        · intro h
          exact absurd h (by simp)
        · intro h
          exact absurd ⟨h.1, h.2.1⟩ hb
      · rw [hg]
        simp

/-- Witness for C6: over the zero stream at order 13 with 0 bits the final
re-validation assertion does not fail. -/
theorem grind_failure_modes_witness :
    grind32 List.head? (recOps zeroStream) 13 0 ⟨[], 0⟩ ≠ .assertFailed :=
  (grind_failure_modes RecInner List.head? (recOps zeroStream) 13 0 ⟨[], 0⟩
      pickValid_head).1.2.2

/-- C7 counterexample: grinding 0 bits at order 13 over the zero stream from
the fresh state returns witness 0, but the live transcript state after the
call — four observed bytes and four consumed stream bytes — differs from the
state at the call, so grind is not observationally read-only on the caller's
live transcript. -/
theorem grind_not_readonly_cex :
    grind32 List.head? (recOps zeroStream) 13 0 ⟨[], 0⟩ =
      .found 0 ⟨[0, 0, 0, 0], 4⟩ ∧
    (⟨[0, 0, 0, 0], 4⟩ : RecInner) ≠ (⟨[], 0⟩ : RecInner) :=
  ⟨by decide, by decide⟩

/-- C7 (amended): the candidate search itself evaluates every candidate
against clones of the state at the call, but the final re-validation runs
`check_witness` on the live transcript, so the state grind returns alongside
the witness is the state at the call advanced by exactly one
`check_witness` evaluation (the witness's serialized bytes observed, then
one native-width word sampled) — not the unchanged state. -/
theorem grind_advances_by_final_check (σ : Type)
    (pick : List Nat → Option Nat) (ops : InnerOps σ) (p bits : Nat)
    (s : σ) :
    (∀ (w : Nat) (s' : σ), grind32 pick ops p bits s = .found w s' →
        check_witness32 ops p bits w s = some (true, s')) ∧
    (∀ (w : Nat) (s' : σ), grind64 pick ops p bits s = .found w s' →
        check_witness64 ops p bits w s = some (true, s')) := by
  constructor
  · intro w s' h
    unfold grind32 at h
    by_cases hb : bits < 64 ∧ 2 ^ bits < p
    · rw [if_pos hb] at h
      split at h
      case _ w0 hp =>
        split at h
        case _ s2 hc =>
          injection h with h1 h2
          subst h1
          subst h2
          exact hc
        case _ => exact absurd h (by simp)
      case _ hp => exact absurd h (by simp)
    · rw [if_neg hb] at h
      exact absurd h (by simp)
  · intro w s' h
    unfold grind64 at h
    by_cases hb : bits < 64 ∧ 2 ^ bits < p
    · rw [if_pos hb] at h
      split at h
      case _ w0 hp =>
        split at h
        case _ s2 hc =>
          injection h with h1 h2
          subst h1
          subst h2
          exact hc
        case _ => exact absurd h (by simp)
      case _ hp => exact absurd h (by simp)
    · rw [if_neg hb] at h
      exact absurd h (by simp)

/-- Witness for the amended C7: the live state returned by the concrete
grind call is exactly the state at the call advanced by the one live
`check_witness` evaluation. -/
theorem grind_advances_by_final_check_witness :
    check_witness32 (recOps zeroStream) 13 0 0 ⟨[], 0⟩ =
      some (true, ⟨[0, 0, 0, 0], 4⟩) :=
  (grind_advances_by_final_check RecInner List.head? (recOps zeroStream) 13 0
      ⟨[], 0⟩).1 0 ⟨[0, 0, 0, 0], 4⟩ (by decide)

/-- C8 counterexample: with a base field of order 13 and an inner transcript
whose successive native-width draws are 15, 2, 9, ..., sampling one
base-field element returns the field element 2 — the first masked draw
strictly below 13 — and not 9 as the claim states. -/
theorem toy_sample_cex :
    (sample_base32 (recOps toyStream) 13 3 ⟨[], 0⟩).value = some 2 ∧
      (2 : Nat) ≠ 9 :=
  ⟨by decide, by decide⟩

/-- C8 (amended): with a toy base field of order 13 (log2_ceil 4, mask 15)
and an inner transcript whose successive native-width draws yield 15, 2, 9,
..., sampling one base-field element rejects the first draw 15 (masked
value 15, at least 13) and returns the field element 2, the next masked
draw, which is strictly below 13. -/
theorem toy_sample_returns_two :
    pow_of_two_bound32 13 = 15 ∧
      (maskedDraw32 (recOps toyStream) 13 ⟨[], 0⟩).1 = 15 ∧
      13 ≤ (maskedDraw32 (recOps toyStream) 13 ⟨[], 0⟩).1 ∧
      sample_base32 (recOps toyStream) 13 3 ⟨[], 0⟩ = .ok 2 ⟨[], 8⟩ :=
  ⟨by decide, by decide, by decide, by decide⟩

end Plonky3
